import Mathlib

/-!
Verification of the btclibwallet seed utilities: the PGP-word-list mnemonic
codec (EncodeMnemonic, DecodeMnemonics, DecodeUserInput), the passphrase
seed vault (encryptWalletSeed, decryptWalletSeed), and the storm batch
transaction wrapper (batchDbTransaction).

Go strings are embedded as lists of characters (GoStr); Go byte slices as
lists of naturals below 256; multiple return values (value, error) as pairs
or Except. External collaborators are embedded as follows: crypto/sha256 is
implemented in full below; scrypt and nacl/secretbox are parameters
(VaultPrims) constrained by their documented contracts; the storm database
is a backend record of the begin/commit/rollback outcomes.
-/

set_option maxRecDepth 10000
set_option maxHeartbeats 2000000

/-! ## Go string primitives -/

/-- A Go string, embedded as its character list. -/
abbrev GoStr := List Char

/-- Go unicode.IsSpace restricted to the characters relevant here
(the Latin-1 cases of the Go table). -/
def goIsSpace (c : Char) : Bool :=
  c = ' ' || c = '\t' || c = '\n' || c = '\x0b' || c = '\x0c' || c = '\r'

/-- Go strings.ToLower on one character (ASCII case; the word-list and all
phrases built from it are ASCII). -/
def goToLowerChar (c : Char) : Char :=
  if 65 <= c.toNat && c.toNat <= 90 then Char.ofNat (c.toNat + 32) else c

/-- Go strings.ToLower. -/
def goToLower (s : GoStr) : GoStr := s.map goToLowerChar

/-- Go strings.TrimSpace: drop leading and trailing whitespace. -/
def goTrimSpace (s : GoStr) : GoStr :=
  ((s.dropWhile goIsSpace).reverse.dropWhile goIsSpace).reverse

/-- Go strings.Split with a one-character separator: all substrings between
occurrences of the separator, empty parts included, never the empty list. -/
def goSplit (sep : Char) : GoStr -> List GoStr
  | [] => [[]]
  | c :: rest =>
    match goSplit sep rest with
    | [] => [[]]
    | p :: ps => if c = sep then [] :: p :: ps else (c :: p) :: ps

/-- Joining parts with a one-character separator (the buffer writes of
EncodeMnemonic produce exactly this shape for a nonempty seed). -/
def goJoin (sep : Char) : List GoStr -> GoStr
  | [] => []
  | [p] => p
  | p :: ps => p ++ sep :: goJoin sep ps

/-! ## SHA-256 (crypto/sha256), over byte lists, words as naturals mod 2^32 -/

/-- The modulus of 32-bit words. -/
def two32 : Nat := 4294967296

def rotr32 (n x : Nat) : Nat := ((x >>> n) ||| (x <<< (32 - n))) % two32

def sSig0 (x : Nat) : Nat := Nat.xor (Nat.xor (rotr32 7 x) (rotr32 18 x)) (x >>> 3)
def sSig1 (x : Nat) : Nat := Nat.xor (Nat.xor (rotr32 17 x) (rotr32 19 x)) (x >>> 10)
def bSig0 (x : Nat) : Nat := Nat.xor (Nat.xor (rotr32 2 x) (rotr32 13 x)) (rotr32 22 x)
def bSig1 (x : Nat) : Nat := Nat.xor (Nat.xor (rotr32 6 x) (rotr32 11 x)) (rotr32 25 x)

def chFn (x y z : Nat) : Nat := Nat.xor (Nat.land x y) (Nat.land (Nat.xor x 4294967295) z)
def majFn (x y z : Nat) : Nat := Nat.xor (Nat.xor (Nat.land x y) (Nat.land x z)) (Nat.land y z)

def sha256K : List Nat :=
  [1116352408, 1899447441, 3049323471, 3921009573, 961987163, 1508970993,
   2453635748, 2870763221, 3624381080, 310598401, 607225278, 1426881987,
   1925078388, 2162078206, 2614888103, 3248222580, 3835390401, 4022224774,
   264347078, 604807628, 770255983, 1249150122, 1555081692, 1996064986,
   2554220882, 2821834349, 2952996808, 3210313671, 3336571891, 3584528711,
   113926993, 338241895, 666307205, 773529912, 1294757372, 1396182291,
   1695183700, 1986661051, 2177026350, 2456956037, 2730485921, 2820302411,
   3259730800, 3345764771, 3516065817, 3600352804, 4094571909, 275423344,
   430227734, 506948616, 659060556, 883997877, 958139571, 1322822218,
   1537002063, 1747873779, 1955562222, 2024104815, 2227730452, 2361852424,
   2428436474, 2756734187, 3204031479, 3329325298]

def sha256H0 : List Nat :=
  [1779033703, 3144134277, 1013904242, 2773480762, 1359893119, 2600822924, 528734635, 1541459225]

/-- Big-endian byte expansion of `x`, `n` bytes wide. -/
def natToBytesBE : Nat -> Nat -> List Nat
  | 0, _ => []
  | n + 1, x => natToBytesBE n (x / 256) ++ [x % 256]

/-- SHA-256 padding: 0x80, zeros to 56 mod 64, then the 64-bit bit length. -/
def sha256Pad (msg : List Nat) : List Nat :=
  msg ++ [128] ++ List.replicate ((64 - ((msg.length + 9) % 64)) % 64) 0
      ++ natToBytesBE 8 (8 * msg.length)

/-- Group bytes into big-endian 32-bit words. -/
def bytesToWordsBE : List Nat -> List Nat
  | a :: b :: c :: d :: rest =>
      (((a * 256 + b) * 256 + c) * 256 + d) :: bytesToWordsBE rest
  | _ => []

/-- Serialize 32-bit words back to big-endian bytes. -/
def wordsToBytesBE : List Nat -> List Nat
  | [] => []
  | x :: rest => [x / 16777216 % 256, x / 65536 % 256, x / 256 % 256, x % 256] ++ wordsToBytesBE rest

/-- Extend the 16 message-schedule words to 64. -/
def sha256Extend : Nat -> List Nat -> List Nat
  | 0, acc => acc
  | n + 1, acc =>
      let i := acc.length
      let nw := (sSig1 (acc.getD (i - 2) 0) + acc.getD (i - 7) 0
                 + sSig0 (acc.getD (i - 15) 0) + acc.getD (i - 16) 0) % two32
      sha256Extend n (acc ++ [nw])

/-- One round of the compression function; `st` is `[a,b,c,d,e,f,g,h]`. -/
def sha256Round (st : List Nat) (k : Nat) (w : Nat) : List Nat :=
  let a := st.getD 0 0
  let b := st.getD 1 0
  let c := st.getD 2 0
  let d := st.getD 3 0
  let e := st.getD 4 0
  let f := st.getD 5 0
  let g := st.getD 6 0
  let h := st.getD 7 0
  let t1 := (h + bSig1 e + chFn e f g + k + w) % two32
  let t2 := (bSig0 a + majFn a b c) % two32
  [(t1 + t2) % two32, a, b, c, (d + t1) % two32, e, f, g]

/-- Run the 64 rounds, consuming the constants and the schedule in step. -/
def sha256Rounds : List Nat -> List Nat -> List Nat -> List Nat
  | st, k :: ks, w :: ws => sha256Rounds (sha256Round st k w) ks ws
  | st, _, _ => st

/-- Pointwise addition mod 2^32 of two word vectors. -/
def addMod32 : List Nat -> List Nat -> List Nat
  | x :: xs, y :: ys => (x + y) % two32 :: addMod32 xs ys
  | _, _ => []

/-- Compress one 64-byte block into the running state. -/
def sha256Block (h : List Nat) (block : List Nat) : List Nat :=
  addMod32 h (sha256Rounds h sha256K (sha256Extend 48 (bytesToWordsBE block)))

/-- Compress the blocks of 64 bytes in order; `fuel` bounds the recursion and
is chosen at least the block count by the caller. -/
def sha256Blocks : Nat -> List Nat -> List Nat -> List Nat
  | 0, h, _ => h
  | _ + 1, h, [] => h
  | n + 1, h, bytes => sha256Blocks n (sha256Block h (bytes.take 64)) (bytes.drop 64)

/-- SHA-256 of a byte list, as its 32 digest bytes (crypto/sha256 Sum256). -/
def sha256 (msg : List Nat) : List Nat :=
  let padded := sha256Pad msg
  wordsToBytesBE (sha256Blocks (padded.length / 64 + 1) sha256H0 padded)

/-- Standard test vector: the digest of the empty message. -/
theorem sha256_empty_testVector : sha256 [] =
  [227, 176, 196, 66, 152, 252, 28, 20, 154, 251, 244,
   200, 153, 111, 185, 36, 39, 174, 65, 228, 100, 155,
   147, 76, 164, 149, 153, 27, 120, 82, 184, 85] := by
  decide

/-- Standard test vector: the digest of "abc". -/
theorem sha256_abc_testVector : sha256 [97, 98, 99] =
  [186, 120, 22, 191, 143, 1, 207, 234, 65, 65, 64,
   222, 93, 174, 34, 35, 176, 3, 97, 163, 150, 23,
   122, 156, 180, 16, 255, 97, 242, 0, 21, 173] := by
  decide

/-! ## A fuel-based mergesort, used only to certify distinctness of the
word-list keys by an n log n computation instead of a quadratic one -/

/-- Split a list into its even- and odd-position elements. -/
def splitAlt : List Nat -> List Nat × List Nat
  | [] => ([], [])
  | x :: rest => ((splitAlt rest).2.cons x, (splitAlt rest).1)

/-- Merge two lists, fueled so that the recursion is structural. -/
def mergeFuel : Nat -> List Nat -> List Nat -> List Nat
  | 0, xs, ys => xs ++ ys
  | _ + 1, [], ys => ys
  | _ + 1, x :: xs, [] => x :: xs
  | f + 1, x :: xs, y :: ys =>
      if x <= y then x :: mergeFuel f xs (y :: ys) else y :: mergeFuel f (x :: xs) ys

/-- Fueled mergesort. -/
def msortFuel : Nat -> List Nat -> List Nat
  | 0, l => l
  | f + 1, l =>
    match l with
    | [] => []
    | [x] => [x]
    | _ =>
      let a := msortFuel f (splitAlt l).1
      let b := msortFuel f (splitAlt l).2
      mergeFuel (a.length + b.length) a b

/-! ## The word list and the mnemonic codec -/

/-- The lines of the Go constant `AlternatingWords` (a backquoted literal of
512 newline-separated words); the source computes
`wordList = strings.Split(AlternatingWords, "\n")`, which is exactly this
list of lines, in source order. -/
def AlternatingWordsLines : List String := ["aardvark", "adroitness", "absurd", "adviser", "accrue", "aftermath", "acme", "aggregate",
   "adrift", "alkali", "adult", "almighty", "afflict", "amulet", "ahead", "amusement",
   "aimless", "antenna", "Algol", "applicant", "allow", "Apollo", "alone", "armistice",
   "ammo", "article", "ancient", "asteroid", "apple", "Atlantic", "artist", "atmosphere",
   "assume", "autopsy", "Athens", "Babylon", "atlas", "backwater", "Aztec", "barbecue",
   "baboon", "belowground", "backfield", "bifocals", "backward", "bodyguard", "banjo", "bookseller",
   "beaming", "borderline", "bedlamp", "bottomless", "beehive", "Bradbury", "beeswax", "bravado",
   "befriend", "Brazilian", "Belfast", "breakaway", "berserk", "Burlington", "billiard", "businessman",
   "bison", "butterfat", "blackjack", "Camelot", "blockade", "candidate", "blowtorch", "cannonball",
   "bluebird", "Capricorn", "bombast", "caravan", "bookshelf", "caretaker", "brackish", "celebrate",
   "breadline", "cellulose", "breakup", "certify", "brickyard", "chambermaid", "briefcase", "Cherokee",
   "Burbank", "Chicago", "button", "clergyman", "buzzard", "coherence", "cement", "combustion",
   "chairlift", "commando", "chatter", "company", "checkup", "component", "chisel", "concurrent",
   "choking", "confidence", "chopper", "conformist", "Christmas", "congregate", "clamshell", "consensus",
   "classic", "consulting", "classroom", "corporate", "cleanup", "corrosion", "clockwork", "councilman",
   "cobra", "crossover", "commence", "crucifix", "concert", "cumbersome", "cowbell", "customer",
   "crackdown", "Dakota", "cranky", "decadence", "crowfoot", "December", "crucial", "decimal",
   "crumpled", "designing", "crusade", "detector", "cubic", "detergent", "dashboard", "determine",
   "deadbolt", "dictator", "deckhand", "dinosaur", "dogsled", "direction", "dragnet", "disable",
   "drainage", "disbelief", "dreadful", "disruptive", "drifter", "distortion", "dropper", "document",
   "drumbeat", "embezzle", "drunken", "enchanting", "Dupont", "enrollment", "dwelling", "enterprise",
   "eating", "equation", "edict", "equipment", "egghead", "escapade", "eightball", "Eskimo",
   "endorse", "everyday", "endow", "examine", "enlist", "existence", "erase", "exodus",
   "escape", "fascinate", "exceed", "filament", "eyeglass", "finicky", "eyetooth", "forever",
   "facial", "fortitude", "fallout", "frequency", "flagpole", "gadgetry", "flatfoot", "Galveston",
   "flytrap", "getaway", "fracture", "glossary", "framework", "gossamer", "freedom", "graduate",
   "frighten", "gravity", "gazelle", "guitarist", "Geiger", "hamburger", "glitter", "Hamilton",
   "glucose", "handiwork", "goggles", "hazardous", "goldfish", "headwaters", "gremlin", "hemisphere",
   "guidance", "hesitate", "hamlet", "hideaway", "highchair", "holiness", "hockey", "hurricane",
   "indoors", "hydraulic", "indulge", "impartial", "inverse", "impetus", "involve", "inception",
   "island", "indigo", "jawbone", "inertia", "keyboard", "infancy", "kickoff", "inferno",
   "kiwi", "informant", "klaxon", "insincere", "locale", "insurgent", "lockup", "integrate",
   "merit", "intention", "minnow", "inventive", "miser", "Istanbul", "Mohawk", "Jamaica",
   "mural", "Jupiter", "music", "leprosy", "necklace", "letterhead", "Neptune", "liberty",
   "newborn", "maritime", "nightbird", "matchmaker", "Oakland", "maverick", "obtuse", "Medusa",
   "offload", "megaton", "optic", "microscope", "orca", "microwave", "payday", "midsummer",
   "peachy", "millionaire", "pheasant", "miracle", "physique", "misnomer", "playhouse", "molasses",
   "Pluto", "molecule", "preclude", "Montana", "prefer", "monument", "preshrunk", "mosquito",
   "printer", "narrative", "prowler", "nebula", "pupil", "newsletter", "puppy", "Norwegian",
   "python", "October", "quadrant", "Ohio", "quiver", "onlooker", "quota", "opulent",
   "ragtime", "Orlando", "ratchet", "outfielder", "rebirth", "Pacific", "reform", "pandemic",
   "regain", "Pandora", "reindeer", "paperweight", "rematch", "paragon", "repay", "paragraph",
   "retouch", "paramount", "revenge", "passenger", "reward", "pedigree", "rhythm", "Pegasus",
   "ribcage", "penetrate", "ringbolt", "perceptive", "robust", "performance", "rocker", "pharmacy",
   "ruffled", "phonetic", "sailboat", "photograph", "sawdust", "pioneer", "scallion", "pocketful",
   "scenic", "politeness", "scorecard", "positive", "Scotland", "potato", "seabird", "processor",
   "select", "provincial", "sentence", "proximate", "shadow", "puberty", "shamrock", "publisher",
   "showgirl", "pyramid", "skullcap", "quantity", "skydive", "racketeer", "slingshot", "rebellion",
   "slowdown", "recipe", "snapline", "recover", "snapshot", "repellent", "snowcap", "replica",
   "snowslide", "reproduce", "solo", "resistor", "southward", "responsive", "soybean", "retraction",
   "spaniel", "retrieval", "spearhead", "retrospect", "spellbind", "revenue", "spheroid", "revival",
   "spigot", "revolver", "spindle", "sandalwood", "spyglass", "sardonic", "stagehand", "Saturday",
   "stagnate", "savagery", "stairway", "scavenger", "standard", "sensation", "stapler", "sociable",
   "steamship", "souvenir", "sterling", "specialist", "stockman", "speculate", "stopwatch", "stethoscope",
   "stormy", "stupendous", "sugar", "supportive", "surmount", "surrender", "suspense", "suspicious",
   "sweatband", "sympathy", "swelter", "tambourine", "tactics", "telephone", "talon", "therapist",
   "tapeworm", "tobacco", "tempest", "tolerance", "tiger", "tomorrow", "tissue", "torpedo",
   "tonic", "tradition", "topmost", "travesty", "tracker", "trombonist", "transit", "truncated",
   "trauma", "typewriter", "treadmill", "ultimate", "Trojan", "undaunted", "trouble", "underfoot",
   "tumor", "unicorn", "tunnel", "unify", "tycoon", "universe", "uncut", "unravel",
   "unearth", "upcoming", "unwind", "vacancy", "uproot", "vagabond", "upset", "vertigo",
   "upshot", "Virginia", "vapor", "visitor", "village", "vocalist", "virus", "voyager",
   "Vulcan", "warranty", "waffle", "Waterloo", "wallet", "whimsical", "watchword", "Wichita",
   "wayside", "Wilmington", "willow", "Wyoming", "woodlark", "yesteryear", "Zulu", "Yucatan"]

/-- `wordList`, the split of the word-list asset into its 512 entries. -/
def wordList : List GoStr := AlternatingWordsLines.map String.data

/-- The keys of the `wordIndexes` map built in `init()`:
`strings.ToLower(strings.TrimSpace(word))` for each word in order. -/
def normWords : List GoStr := wordList.map fun w => goToLower (goTrimSpace w)

/-- First index of `key` in `l`, counting from `i`. -/
def lookupIndexLoop (key : GoStr) : List GoStr -> Nat -> Option Nat
  | [], _ => none
  | w :: ws, i => if w = key then some i else lookupIndexLoop key ws (i + 1)

/-- The `wordIndexes` map lookup. The Go map assigns `uint16(i)` to the
normalized word `i`, later entries overwriting earlier ones; as the
normalized words are pairwise distinct (`normWords_nodup` below), the map
sends a key to the unique index holding it, which is the first. -/
def wordIndexes (key : GoStr) : Option Nat := lookupIndexLoop key normWords 0

/-- The table index `bb` computed by `ByteToMnemonic`:
`b*2`, plus one when the byte position is odd. -/
def mnemonicIndex (b : Nat) (index : Nat) : Nat :=
  b * 2 + (if index % 2 != 0 then 1 else 0)

/-- `ByteToMnemonic`: the PGP word list encoding of byte `b` at `index`.
The source indexes `wordList[bb]` directly; `getD` supplies a default that
is never used, `mnemonicIndex_lt_length` below giving the bound. -/
def ByteToMnemonic (b : Nat) (index : Nat) : GoStr :=
  wordList.getD (mnemonicIndex b index) []

/-- `checksumByte`: the first byte of the double SHA-256 of `data`. -/
def checksumByte (data : List Nat) : Nat := (sha256 (sha256 data)).headD 0

/-- The encoding loop of `EncodeMnemonic`: one word per byte, a space
before every word except the one at index 0. -/
def encodeMnemonicLoop : Nat -> List Nat -> GoStr
  | _, [] => []
  | i, b :: rest =>
      (if i != 0 then [' '] else []) ++ ByteToMnemonic b i ++ encodeMnemonicLoop (i + 1) rest

/-- `EncodeMnemonic`: the loop over the seed bytes, then an unconditional
space and the word of the checksum byte at position `len(seed)`. -/
def EncodeMnemonic (seed : List Nat) : GoStr :=
  encodeMnemonicLoop 0 seed ++ [' '] ++ ByteToMnemonic (checksumByte seed) seed.length

/-- The word sequence of the encoding: one word per seed byte at its
position, then the checksum word at position `len(seed)`. -/
def byteWordsFrom : Nat -> List Nat -> List GoStr
  | _, [] => []
  | i, b :: rest => ByteToMnemonic b i :: byteWordsFrom (i + 1) rest

/-- The words of `EncodeMnemonic seed`, as a list. -/
def mnemonicWords (seed : List Nat) : List GoStr :=
  byteWordsFrom 0 seed ++ [ByteToMnemonic (checksumByte seed) seed.length]

/-- The error kinds of the dcrwallet errors package used by this code; every
error this file produces carries kind `Encoding`
(`errors.E(op, errors.Encoding, ...)` in the source). -/
inductive ErrKind where
  | Encoding
  deriving DecidableEq

/-- The errors of the codec and the user-input decoder. -/
inductive DecodeError where
  | wordNotInList (w : GoStr)
  | wordInvalidAtPosition (w : GoStr) (idx : Nat)
  | checksumMismatch
  | invalidHex
  | invalidSeedLen
  deriving DecidableEq

/-- Every error of this module is tagged `errors.Encoding` in the source. -/
def DecodeError.kind : DecodeError -> ErrKind := fun _ => ErrKind.Encoding

/-- The loop of `DecodeMnemonics`: trim each token, skip empty ones, look the
token up (lowercased) in `wordIndexes`, check that the parity of the found
table index matches the running position `idx`, and emit `b / 2`. -/
def decodeMnemonicsLoop : List GoStr -> Nat -> Except DecodeError (List Nat)
  | [], _ => .ok []
  | w :: ws, idx =>
    let w' := goTrimSpace w
    if w' = [] then decodeMnemonicsLoop ws idx
    else
      match wordIndexes (goToLower w') with
      | none => .error (.wordNotInList w')
      | some b =>
        if b % 2 != idx % 2 then .error (.wordInvalidAtPosition w' idx)
        else
          match decodeMnemonicsLoop ws (idx + 1) with
          | .error e => .error e
          | .ok rest => .ok (b / 2 :: rest)

/-- `DecodeMnemonics`: decode a token list starting at position 0. -/
def DecodeMnemonics (words : List GoStr) : Except DecodeError (List Nat) :=
  decodeMnemonicsLoop words 0

/-! ## Hexadecimal (encoding/hex) and the user-input decoder -/

/-- The value of a hex digit, if it is one. -/
def hexDigitValue? (c : Char) : Option Nat :=
  if 48 <= c.toNat && c.toNat <= 57 then some (c.toNat - 48)
  else if 97 <= c.toNat && c.toNat <= 102 then some (c.toNat - 97 + 10)
  else if 65 <= c.toNat && c.toNat <= 70 then some (c.toNat - 65 + 10)
  else none

/-- Go hex.DecodeString: two digits per byte; `none` on an odd length or a
non-digit (the model does not distinguish the two failure reasons). -/
def goDecodeHex : GoStr -> Option (List Nat)
  | [] => some []
  | [_] => none
  | c1 :: c2 :: rest =>
    match hexDigitValue? c1, hexDigitValue? c2, goDecodeHex rest with
    | some h, some l, some r => some ((h * 16 + l) :: r)
    | _, _, _ => none

/-- The lowercase hex digit of `n < 16`. -/
def hexDigitChar (n : Nat) : Char :=
  if n < 10 then Char.ofNat (48 + n) else Char.ofNat (97 + (n - 10))

/-- Go hex.EncodeToString (the repository's `EncodeHex`): two lowercase
digits per byte. -/
def goEncodeHex : List Nat -> GoStr
  | [] => []
  | b :: rest => hexDigitChar (b / 16) :: hexDigitChar (b % 16) :: goEncodeHex rest

/-- `hdkeychain.MinSeedBytes` of btcsuite/btcutil: 16 bytes (128 bits). -/
def MinSeedBytes : Nat := 16

/-- `hdkeychain.MaxSeedBytes` of btcsuite/btcutil: 64 bytes (512 bits). -/
def MaxSeedBytes : Nat := 64

/-- The checksum step of `DecodeUserInput` on a successful mnemonic decode:
fewer than 2 decoded bytes break out with the seed still empty; otherwise
the recomputed checksum of `decoded[:len-1]` is compared with the final
byte, a mismatch failing and a match taking `decoded[:len-1]` as the seed. -/
def seedFromDecoded (decoded : List Nat) : Except DecodeError (List Nat) :=
  if decoded.length < 2 then .ok []
  else if checksumByte (decoded.take (decoded.length - 1)) != decoded.getD (decoded.length - 1) 0
    then .error .checksumMismatch
  else .ok (decoded.take (decoded.length - 1))

/-- The final bounds check of `DecodeUserInput`, applied on every path. -/
def seedLengthCheck (seed : List Nat) : Except DecodeError (List Nat) :=
  if seed.length < MinSeedBytes || seed.length > MaxSeedBytes then .error .invalidSeedLen
  else .ok seed

/-- `DecodeUserInput`: trim, split on single spaces; one token is taken as
hex, more than one as a mnemonic with checksum; either way the resulting
seed passes the final length-bounds check. (`goSplit` never returns an
empty list, so the `[]` arm is unreachable; it mirrors the Go switch whose
cases can both fail to match, leaving `seed` nil.) -/
def DecodeUserInput (input : GoStr) : Except DecodeError (List Nat) :=
  match goSplit ' ' (goTrimSpace input) with
  | [w] =>
    match goDecodeHex w with
    | none => .error .invalidHex
    | some seed => seedLengthCheck seed
  | w1 :: w2 :: ws =>
    match DecodeMnemonics (w1 :: w2 :: ws) with
    | .error e => .error e
    | .ok decoded =>
      match seedFromDecoded decoded with
      | .error e => .error e
      | .ok seed => seedLengthCheck seed
  | [] => seedLengthCheck []

/-! ## The seed vault (multiwallet_utils.go) -/

/-- The external cryptographic primitives the vault calls: `scrypt.Key`
with the fixed parameters `N = 1<<15, r = 8, p = 1, keyLen = 32` and no
salt, and `secretbox.EasySeal` / `secretbox.EasyOpen` of kevinburke/nacl.
They are parameters of the embedding, constrained by their documented
contracts (`ScryptTotal`, `SealOpenId`) where a theorem needs them. -/
structure VaultPrims where
  scryptKey : List Nat -> Except String (List Nat)
  easySeal : List Nat -> List Nat -> List Nat
  easyOpen : List Nat -> List Nat -> Except String (List Nat)

/-- nacl.KeySize. -/
def naclKeySize : Nat := 32

/-- kevinburke/nacl `Load`: decode a hex string, accept exactly 32 bytes. -/
def naclLoad (hexKey : GoStr) : Except String (List Nat) :=
  match goDecodeHex hexKey with
  | none => .error "nacl: could not decode hex"
  | some k => if k.length = naclKeySize then .ok k else .error "nacl: incorrect key length"

/-- `naclLoadFromPass`: derive a nacl key from `pass` with scrypt, then load
it through `nacl.Load(EncodeHex(hash))`. -/
def naclLoadFromPass (P : VaultPrims) (pass : List Nat) : Except String (List Nat) :=
  match P.scryptKey pass with
  | .error e => .error e
  | .ok hash => naclLoad (goEncodeHex hash)

/-- The repository's `ErrInvalidPassphrase` error code (declared outside the
given sources; only its identity matters here). -/
def ErrInvalidPassphrase : String := "invalid_passphrase"

/-- `encryptWalletSeed`: derive the key, then seal the seed string. The Go
signature returns `([]byte, error)`; the pair is (value, error), the seed
string being its byte list. -/
def encryptWalletSeed (P : VaultPrims) (pass : List Nat) (seed : List Nat) :
    List Nat × Option String :=
  match naclLoadFromPass P pass with
  | .error e => ([], some e)
  | .ok key => (P.easySeal seed key, none)

/-- `decryptWalletSeed`: derive the key, then open the blob; any failure of
the authenticated open is replaced by `errors.New(ErrInvalidPassphrase)`
with the empty string as the value. -/
def decryptWalletSeed (P : VaultPrims) (pass : List Nat) (encryptedSeed : List Nat) :
    List Nat × Option String :=
  match naclLoadFromPass P pass with
  | .error e => ([], some e)
  | .ok key =>
    match P.easyOpen encryptedSeed key with
    | .error _ => ([], some ErrInvalidPassphrase)
    | .ok decryptedSeed => (decryptedSeed, none)

/-- Documented contract of scrypt.Key at the fixed parameters used here: the
parameters are valid, so the call never fails and returns 32 bytes. -/
def ScryptTotal (P : VaultPrims) : Prop :=
  ∀ pass, ∃ k, P.scryptKey pass = .ok k ∧ k.length = 32 ∧ ∀ b ∈ k, b < 256

/-- Documented contract of the secretbox: opening a sealed box under the
sealing key returns the sealed message. -/
def SealOpenId (P : VaultPrims) : Prop :=
  ∀ m k, k.length = 32 -> P.easyOpen (P.easySeal m k) k = .ok m

/-! ## The batch transaction wrapper (multiwallet_utils.go) -/

/-- One call on the storm backend. -/
inductive DbAction where
  | beginTx
  | commitTx
  | rollbackTx
  deriving DecidableEq

/-- The observable behavior of the caller-supplied `dbOp` on the transaction
it is handed: return an error value (possibly nil), or panic. -/
inductive OpBehavior where
  | ret (e : Option String)
  | panics (v : String)
  deriving DecidableEq

/-- How `batchDbTransaction` itself terminates: a normal return with an
error value (possibly nil), or an propagating panic with its original value. -/
inductive GoOutcome where
  | ret (e : Option String)
  | panicked (v : String)
  deriving DecidableEq

/-- The storm backend, embedded as the outcomes its calls would produce:
`Begin`, `Commit` and `Rollback` each either succeed or yield an error. -/
structure StormBackend where
  beginErr : Option String
  commitErr : Option String
  rollbackErr : Option String

/-- The result of a run of `batchDbTransaction`: how it terminated, and the
backend calls it made, in order. -/
structure BatchResult where
  outcome : GoOutcome
  actions : List DbAction
  deriving DecidableEq

/-- `batchDbTransaction`: begin a writable transaction (returning the error
if that fails); run `dbOp`; in the deferred function, roll back if `dbOp`
panicked or returned a non-nil error — the `Rollback()` return value is
discarded by the source — and otherwise commit, the commit error becoming
the returned error. A panic is not recovered: it propagates with its
original value after the rollback. -/
def batchDbTransaction (db : StormBackend) (dbOp : OpBehavior) : BatchResult :=
  match db.beginErr with
  | some e => ⟨.ret (some e), [.beginTx]⟩
  | none =>
    match dbOp with
    | .panics v => ⟨.panicked v, [.beginTx, .rollbackTx]⟩
    | .ret (some e) => ⟨.ret (some e), [.beginTx, .rollbackTx]⟩
    | .ret none => ⟨.ret db.commitErr, [.beginTx, .commitTx]⟩

/-! ## Certified facts about the word list -/

/-- The asset has exactly 512 entries. -/
theorem wordList_length : wordList.length = 512 := by decide

/-- Every entry is nonempty and contains no whitespace character (so it is
already trimmed, survives `goTrimSpace` unchanged, and contains no space). -/
theorem wordList_words_ok : ∀ w ∈ wordList, w ≠ [] ∧ ∀ c ∈ w, goIsSpace c = false := by decide

theorem splitAlt_perm : ∀ l : List Nat, List.Perm ((splitAlt l).1 ++ (splitAlt l).2) l := by
  intro l
  induction l with
  | nil => simp [splitAlt]
  | cons x rest ih =>
    simp only [splitAlt, List.cons_append]
    exact (List.perm_append_comm.trans ih).cons x

theorem mergeFuel_perm : ∀ (f : Nat) (xs ys : List Nat),
    List.Perm (mergeFuel f xs ys) (xs ++ ys) := by
  intro f
  induction f with
  | zero => intro xs ys; simp [mergeFuel]
  | succ f ih =>
    intro xs ys
    match xs, ys with
    | [], ys => simp [mergeFuel]
    | x :: xs, [] => simp [mergeFuel]
    | x :: xs, y :: ys =>
      simp only [mergeFuel]
      by_cases hxy : x <= y
      · rw [if_pos hxy]
        exact (ih xs (y :: ys)).cons x
      · rw [if_neg hxy]
        exact ((ih (x :: xs) ys).cons y).trans List.perm_middle.symm

theorem msortFuel_perm : ∀ (f : Nat) (l : List Nat), List.Perm (msortFuel f l) l := by
  intro f
  induction f with
  | zero => intro l; simp [msortFuel]
  | succ f ih =>
    intro l
    match l with
    | [] => simp [msortFuel]
    | [x] => simp [msortFuel]
    | x :: y :: rest =>
      simp only [msortFuel]
      refine (mergeFuel_perm _ _ _).trans ?_
      refine ((ih _).append (ih _)).trans ?_
      exact splitAlt_perm (x :: y :: rest)

/-- A strict-ascent check whose evaluation is a single pass. -/
def chainLtBool : List Nat -> Bool
  | [] => true
  | [_] => true
  | x :: y :: rest => decide (x < y) && chainLtBool (y :: rest)

theorem chainLtBool_chain' : ∀ l : List Nat, chainLtBool l = true -> List.Chain' (· < ·) l
  | [] => fun _ => List.chain'_nil
  | [x] => fun _ => List.chain'_singleton x
  | x :: y :: rest => fun h => by
      simp only [chainLtBool, Bool.and_eq_true, decide_eq_true_eq] at h
      exact List.chain'_cons.mpr ⟨h.1, chainLtBool_chain' (y :: rest) h.2⟩

/-- A run of the fueled mergesort that comes out strictly ascending certifies
that the input list had no duplicates. -/
theorem nodup_of_msortFuel_chain (f : Nat) (l : List Nat)
    (h : chainLtBool (msortFuel f l) = true) : l.Nodup := by
  have hp : (msortFuel f l).Pairwise (· < ·) :=
    List.chain'_iff_pairwise.mp (chainLtBool_chain' _ h)
  have hnd : (msortFuel f l).Nodup := hp.imp fun hlt => Nat.ne_of_lt hlt
  exact (msortFuel_perm f l).nodup hnd

/-- A fingerprint of a character list, used only to make the distinctness
computation cheap (only the direction from distinct fingerprints to distinct
lists is used, which holds for any function). -/
def strKey (s : GoStr) : Nat := s.foldl (fun a c => a * 1114112 + c.toNat + 1) 0

/-- Sorting the 512 normalized-word fingerprints comes out strictly
ascending. -/
theorem normWords_keys_sorted : chainLtBool (msortFuel 16 (normWords.map strKey)) = true := by
  decide

/-- The normalized words (the keys of the `wordIndexes` map) are pairwise
distinct, so the map lookup inverts the table exactly. -/
theorem normWords_nodup : normWords.Nodup :=
  List.Nodup.of_map strKey (nodup_of_msortFuel_chain 16 _ normWords_keys_sorted)

theorem lookupIndexLoop_get : ∀ (l : List GoStr), l.Nodup ->
    ∀ (i j : Nat) (hj : j < l.length), lookupIndexLoop (l.get ⟨j, hj⟩) l i = some (i + j) := by
  intro l
  induction l with
  | nil => intro _ i j hj; simp at hj
  | cons w ws ih =>
    intro hnd i j hj
    cases j with
    | zero => simp [lookupIndexLoop]
    | succ j' =>
      have hj' : j' < ws.length := by simpa using hj
      have hmem : ws.get ⟨j', hj'⟩ ∈ ws := List.get_mem ws j' hj'
      have hne : w ≠ ws.get ⟨j', hj'⟩ := by
        intro he
        exact (List.nodup_cons.mp hnd).1 (he ▸ hmem)
      have hstep : (w :: ws).get ⟨j' + 1, hj⟩ = ws.get ⟨j', hj'⟩ := rfl
      rw [hstep]
      simp only [lookupIndexLoop]
      rw [if_neg hne]
      rw [ih (List.nodup_cons.mp hnd).2 (i + 1) j' hj']
      congr 1
      omega

/-- The map lookup of the `j`-th normalized word is `j`. -/
theorem wordIndexes_normWord (j : Nat) (hj : j < normWords.length) :
    wordIndexes (normWords.get ⟨j, hj⟩) = some j := by
  simpa using lookupIndexLoop_get normWords normWords_nodup 0 j hj

/-! ## Lemmas about the Go string primitives -/

theorem dropWhile_noop_head : ∀ s : GoStr,
    (∀ c, s.head? = some c -> goIsSpace c = false) -> s.dropWhile goIsSpace = s := by
  intro s h
  cases s with
  | nil => rfl
  | cons a t =>
    have ha : goIsSpace a = false := h a rfl
    simp [List.dropWhile_cons, ha]

/-- `goTrimSpace` is the identity when neither end of the string is
whitespace. -/
theorem goTrimSpace_noop_edges (s : GoStr)
    (hhead : ∀ c, s.head? = some c -> goIsSpace c = false)
    (hlast : ∀ c, s.getLast? = some c -> goIsSpace c = false) :
    goTrimSpace s = s := by
  have h1 : s.dropWhile goIsSpace = s := dropWhile_noop_head s hhead
  have h2 : s.reverse.dropWhile goIsSpace = s.reverse := by
    apply dropWhile_noop_head
    intro c hc
    apply hlast
    rwa [List.head?_reverse] at hc
  unfold goTrimSpace
  rw [h1, h2, List.reverse_reverse]

/-- `goTrimSpace` is the identity on a string with no whitespace at all. -/
theorem goTrimSpace_noop_of_no_space (s : GoStr)
    (h : ∀ c ∈ s, goIsSpace c = false) : goTrimSpace s = s := by
  apply goTrimSpace_noop_edges
  · intro c hc
    cases s with
    | nil => simp at hc
    | cons a t =>
      apply h
      simp only [List.head?_cons, Option.some.injEq] at hc
      simp [hc]
  · intro c hc
    rcases List.eq_nil_or_concat s with hs | ⟨L, b, hs⟩
    · subst hs; simp at hc
    · subst hs
      simp only [List.concat_eq_append] at hc h
      rw [List.getLast?_concat] at hc
      apply h
      simp only [Option.some.injEq] at hc
      simp [hc]

theorem goSplit_ne_nil (sep : Char) : ∀ s : GoStr, goSplit sep s ≠ [] := by
  intro s
  cases s with
  | nil => simp [goSplit]
  | cons c rest =>
    cases hgs : goSplit sep rest with
    | nil => simp [goSplit, hgs]
    | cons p ps =>
      simp only [goSplit, hgs]
      split <;> simp

theorem goSplit_no_sep (sep : Char) : ∀ s : GoStr,
    (∀ c ∈ s, c ≠ sep) -> goSplit sep s = [s] := by
  intro s
  induction s with
  | nil => intro _; rfl
  | cons c rest ih =>
    intro h
    have hc : c ≠ sep := h c (by simp)
    have hrest := ih fun x hx => h x (by simp [hx])
    simp [goSplit, hrest, if_neg hc]

theorem goSplit_append_sep (sep : Char) : ∀ xs ys : GoStr,
    (∀ c ∈ xs, c ≠ sep) -> goSplit sep (xs ++ sep :: ys) = xs :: goSplit sep ys := by
  intro xs
  induction xs with
  | nil =>
    intro ys _
    obtain ⟨p, ps, hps⟩ := List.exists_cons_of_ne_nil (goSplit_ne_nil sep ys)
    simp [goSplit, hps]
  | cons c xs ih =>
    intro ys h
    have hc : c ≠ sep := h c (by simp)
    have hrest := ih ys fun x hx => h x (by simp [hx])
    simp [goSplit, hrest, if_neg hc]

/-- Splitting the space-joined parts recovers the parts, provided none of
them contains a space. -/
theorem goSplit_goJoin : ∀ parts : List GoStr, parts ≠ [] ->
    (∀ p ∈ parts, ∀ c ∈ p, c ≠ ' ') -> goSplit ' ' (goJoin ' ' parts) = parts := by
  intro parts
  induction parts with
  | nil => intro h; exact absurd rfl h
  | cons p ps ih =>
    intro _ h
    cases ps with
    | nil => exact goSplit_no_sep ' ' p (h p (by simp))
    | cons q qs =>
      have hjoin : goJoin ' ' (p :: q :: qs) = p ++ ' ' :: goJoin ' ' (q :: qs) := rfl
      rw [hjoin, goSplit_append_sep ' ' p _ (h p (by simp)),
        ih (by simp) fun x hx => h x (by simp [hx])]

theorem goJoin_ne_nil : ∀ parts : List GoStr, parts ≠ [] ->
    (∀ p ∈ parts, p ≠ []) -> goJoin ' ' parts ≠ [] := by
  intro parts hne h
  cases parts with
  | nil => exact absurd rfl hne
  | cons p ps =>
    cases ps with
    | nil => exact h p (by simp)
    | cons q qs => simp [goJoin]

theorem goJoin_head? : ∀ (p : GoStr) (ps : List GoStr), p ≠ [] ->
    (goJoin ' ' (p :: ps)).head? = p.head? := by
  intro p ps hp
  cases ps with
  | nil => rfl
  | cons q qs =>
    cases p with
    | nil => exact absurd rfl hp
    | cons a t => rfl

theorem goJoin_getLast? : ∀ (parts : List GoStr) (q : GoStr),
    parts.getLast? = some q -> (∀ p ∈ parts, p ≠ []) ->
    (goJoin ' ' parts).getLast? = q.getLast? := by
  intro parts
  induction parts with
  | nil => intro q hq; simp at hq
  | cons p ps ih =>
    intro q hq h
    cases ps with
    | nil =>
      simp only [List.getLast?_singleton, Option.some.injEq] at hq
      subst hq
      rfl
    | cons q1 qs =>
      have hq' : (q1 :: qs).getLast? = some q := by
        rwa [List.getLast?_cons_cons] at hq
      have hjoin : goJoin ' ' (p :: q1 :: qs) = p ++ ' ' :: goJoin ' ' (q1 :: qs) := rfl
      have hne : goJoin ' ' (q1 :: qs) ≠ [] :=
        goJoin_ne_nil _ (by simp) fun x hx => h x (by simp [hx])
      obtain ⟨a, t, hat⟩ := List.exists_cons_of_ne_nil hne
      obtain ⟨hne', heq⟩ := List.mem_getLast?_eq_getLast (Option.mem_def.mpr hq')
      have hqmem : q ∈ q1 :: qs := heq ▸ List.getLast_mem hne'
      have hqne : q ≠ [] := h q (by simp [hqmem])
      obtain ⟨b, t2, hbt⟩ := List.exists_cons_of_ne_nil hqne
      rw [hjoin, List.getLast?_append, hat, List.getLast?_cons_cons, ← hat,
        ih q hq' fun x hx => h x (by simp [hx]), hbt]
      rw [List.getLast?_eq_getLast_of_ne_nil (List.cons_ne_nil b t2)]
      rfl

/-! ## Lemmas about the codec -/

theorem mnemonicIndex_lt (b i : Nat) (hb : b < 256) : mnemonicIndex b i < 512 := by
  unfold mnemonicIndex
  split <;> omega

theorem mnemonicIndex_mod_two (b i : Nat) : mnemonicIndex b i % 2 = i % 2 := by
  unfold mnemonicIndex
  rcases Nat.mod_two_eq_zero_or_one i with h | h
  all_goals simp [h]
  all_goals omega

theorem mnemonicIndex_div_two (b i : Nat) : mnemonicIndex b i / 2 = b := by
  unfold mnemonicIndex
  split <;> omega

theorem byteToMnemonic_get (b i : Nat) (hb : b < 256) :
    ∃ h : mnemonicIndex b i < wordList.length,
      ByteToMnemonic b i = wordList.get ⟨mnemonicIndex b i, h⟩ := by
  have h : mnemonicIndex b i < wordList.length := by
    rw [wordList_length]; exact mnemonicIndex_lt b i hb
  refine ⟨h, ?_⟩
  unfold ByteToMnemonic
  rw [List.getD_eq_getElem _ _ h]
  rfl

theorem byteToMnemonic_mem (b i : Nat) (hb : b < 256) : ByteToMnemonic b i ∈ wordList := by
  obtain ⟨h, hw⟩ := byteToMnemonic_get b i hb
  rw [hw]
  exact List.get_mem wordList _ h

/-- Looking up the lowercased, trimmed word of byte `b` at position `i`
recovers its table index. -/
theorem wordIndexes_byteToMnemonic (b i : Nat) (hb : b < 256) :
    wordIndexes (goToLower (goTrimSpace (ByteToMnemonic b i))) = some (mnemonicIndex b i) := by
  obtain ⟨h, hw⟩ := byteToMnemonic_get b i hb
  have hlen : mnemonicIndex b i < normWords.length := by
    simp only [normWords, List.length_map]; exact h
  have hkey : goToLower (goTrimSpace (ByteToMnemonic b i)) = normWords.get ⟨mnemonicIndex b i, hlen⟩ := by
    rw [hw]
    simp [normWords, List.getElem_map]
  rw [hkey]
  exact wordIndexes_normWord _ hlen

theorem wordsToBytesBE_lt : ∀ ws : List Nat, ∀ x ∈ wordsToBytesBE ws, x < 256 := by
  intro ws
  induction ws with
  | nil => simp [wordsToBytesBE]
  | cons w rest ih =>
    intro x hx
    simp only [wordsToBytesBE, List.cons_append, List.mem_cons] at hx
    rcases hx with h | h | h | h | h
    · omega
    · omega
    · omega
    · omega
    · exact ih x h

theorem sha256_bytes_lt (m : List Nat) : ∀ x ∈ sha256 m, x < 256 := by
  intro x hx
  exact wordsToBytesBE_lt _ x hx

theorem checksumByte_lt (d : List Nat) : checksumByte d < 256 := by
  unfold checksumByte
  cases h : sha256 (sha256 d) with
  | nil => simp
  | cons x xs =>
    simp only [List.headD_cons]
    exact sha256_bytes_lt (sha256 d) x (h ▸ List.mem_cons_self x xs)

theorem byteWordsFrom_length : ∀ (bs : List Nat) (i : Nat),
    (byteWordsFrom i bs).length = bs.length := by
  intro bs
  induction bs with
  | nil => intro i; rfl
  | cons b rest ih => intro i; simp [byteWordsFrom, ih]

theorem byteWordsFrom_append : ∀ (xs ys : List Nat) (i : Nat),
    byteWordsFrom i (xs ++ ys) = byteWordsFrom i xs ++ byteWordsFrom (i + xs.length) ys := by
  intro xs
  induction xs with
  | nil => intro ys i; simp [byteWordsFrom]
  | cons x xs ih =>
    intro ys i
    simp only [List.cons_append, byteWordsFrom, List.length_cons, List.append_eq]
    rw [ih ys (i + 1)]
    have harith : i + 1 + xs.length = i + (xs.length + 1) := by omega
    rw [harith]

theorem mnemonicWords_eq (s : List Nat) :
    mnemonicWords s = byteWordsFrom 0 (s ++ [checksumByte s]) := by
  unfold mnemonicWords
  rw [byteWordsFrom_append]
  simp [byteWordsFrom]

theorem byteWordsFrom_mem : ∀ (bs : List Nat) (i : Nat) (w : GoStr),
    (∀ b ∈ bs, b < 256) -> w ∈ byteWordsFrom i bs -> w ∈ wordList := by
  intro bs
  induction bs with
  | nil => intro i w _ hw; simp [byteWordsFrom] at hw
  | cons b rest ih =>
    intro i w h hw
    simp only [byteWordsFrom, List.mem_cons] at hw
    rcases hw with hw | hw
    · exact hw ▸ byteToMnemonic_mem b i (h b (by simp))
    · exact ih (i + 1) w (fun x hx => h x (by simp [hx])) hw

theorem mnemonicWords_mem (s : List Nat) (h : ∀ b ∈ s, b < 256) :
    ∀ w ∈ mnemonicWords s, w ∈ wordList := by
  intro w hw
  rw [mnemonicWords_eq] at hw
  refine byteWordsFrom_mem _ 0 w ?_ hw
  intro b hb
  rcases List.mem_append.mp hb with hb | hb
  · exact h b hb
  · simp only [List.mem_singleton] at hb
    exact hb ▸ checksumByte_lt s

theorem mnemonicWords_length (s : List Nat) : (mnemonicWords s).length = s.length + 1 := by
  rw [mnemonicWords_eq, byteWordsFrom_length]
  simp

/-- Decoding the word sequence of a byte list, starting at its position,
recovers the byte list. -/
theorem decodeMnemonicsLoop_byteWords : ∀ (bs : List Nat) (i : Nat),
    (∀ b ∈ bs, b < 256) -> decodeMnemonicsLoop (byteWordsFrom i bs) i = .ok bs := by
  intro bs
  induction bs with
  | nil => intro i _; rfl
  | cons b rest ih =>
    intro i h
    have hb : b < 256 := h b (by simp)
    have hwmem : ByteToMnemonic b i ∈ wordList := byteToMnemonic_mem b i hb
    obtain ⟨hwne, hwns⟩ := wordList_words_ok _ hwmem
    have htrim : goTrimSpace (ByteToMnemonic b i) = ByteToMnemonic b i :=
      goTrimSpace_noop_of_no_space _ hwns
    have hpar : (mnemonicIndex b i % 2 != i % 2) = false := by
      simp [mnemonicIndex_mod_two]
    have hrest := ih (i + 1) fun x hx => h x (by simp [hx])
    have hlook : wordIndexes (goToLower (ByteToMnemonic b i)) = some (mnemonicIndex b i) :=
      htrim ▸ wordIndexes_byteToMnemonic b i hb
    simp only [byteWordsFrom, decodeMnemonicsLoop, htrim, hlook, hpar, if_neg hwne,
      Bool.false_eq_true, if_false, hrest, mnemonicIndex_div_two]

/-- `DecodeMnemonics` on the encoder's words yields the seed with its
checksum byte appended. -/
theorem decodeMnemonics_mnemonicWords (s : List Nat) (h : ∀ b ∈ s, b < 256) :
    DecodeMnemonics (mnemonicWords s) = .ok (s ++ [checksumByte s]) := by
  rw [mnemonicWords_eq]
  apply decodeMnemonicsLoop_byteWords
  intro b hb
  rcases List.mem_append.mp hb with hb | hb
  · exact h b hb
  · simp only [List.mem_singleton] at hb
    exact hb ▸ checksumByte_lt s

/-- The buffer written by the encoding loop from a positive index, extended
by the final space and checksum word, is the space-separated join. -/
theorem encodeMnemonicLoop_join : ∀ (bs : List Nat) (i : Nat) (cw : GoStr), 0 < i ->
    encodeMnemonicLoop i bs ++ ' ' :: cw = ' ' :: goJoin ' ' (byteWordsFrom i bs ++ [cw]) := by
  intro bs
  induction bs with
  | nil => intro i cw _; simp [encodeMnemonicLoop, byteWordsFrom, goJoin]
  | cons b rest ih =>
    intro i cw hi
    have hii : (i != 0) = true := by simp; omega
    have htail : byteWordsFrom (i + 1) rest ++ [cw] ≠ [] := by simp
    obtain ⟨x, xs, hx⟩ := List.exists_cons_of_ne_nil htail
    have hjoin : goJoin ' ' (ByteToMnemonic b i :: (x :: xs)) =
        ByteToMnemonic b i ++ ' ' :: goJoin ' ' (x :: xs) := rfl
    simp only [encodeMnemonicLoop, byteWordsFrom, hii, if_true, List.cons_append, hx, hjoin,
      List.append_assoc, List.singleton_append]
    rw [← hx, ih (i + 1) cw (by omega)]
    simp

/-- For a nonempty seed, `EncodeMnemonic` is exactly the space-join of the
per-byte words and the checksum word. -/
theorem encodeMnemonic_eq_goJoin (s : List Nat) (hs : s ≠ []) :
    EncodeMnemonic s = goJoin ' ' (mnemonicWords s) := by
  obtain ⟨b, rest, rfl⟩ := List.exists_cons_of_ne_nil hs
  have h0 : ((0 : Nat) != 0) = false := by simp
  have htail : byteWordsFrom 1 rest ++ [ByteToMnemonic (checksumByte (b :: rest)) (b :: rest).length] ≠ [] := by
    simp
  obtain ⟨x, xs, hx⟩ := List.exists_cons_of_ne_nil htail
  have hjoin : goJoin ' ' (ByteToMnemonic b 0 :: (x :: xs)) =
      ByteToMnemonic b 0 ++ ' ' :: goJoin ' ' (x :: xs) := rfl
  unfold EncodeMnemonic mnemonicWords
  simp only [encodeMnemonicLoop, h0, Bool.false_eq_true, if_false, List.nil_append, byteWordsFrom,
    List.cons_append, hx, hjoin, List.append_assoc, List.singleton_append]
  rw [← hx, encodeMnemonicLoop_join rest 1 _ (by omega)]

/-- Every word of a phrase contains no space character. -/
theorem mnemonicWords_no_space (s : List Nat) (h : ∀ b ∈ s, b < 256) :
    ∀ w ∈ mnemonicWords s, ∀ c ∈ w, c ≠ ' ' := by
  intro w hw c hc
  obtain ⟨-, hns⟩ := wordList_words_ok w (mnemonicWords_mem s h w hw)
  intro he
  have := hns c hc
  rw [he] at this
  simp [goIsSpace] at this

/-- The phrase of a nonempty seed passes `goTrimSpace` unchanged: its first
and last characters are word characters. -/
theorem goTrimSpace_phrase (s : List Nat) (h : ∀ b ∈ s, b < 256) :
    goTrimSpace (goJoin ' ' (mnemonicWords s)) = goJoin ' ' (mnemonicWords s) := by
  have hww : ∀ w ∈ mnemonicWords s, w ≠ [] := fun w hw =>
    (wordList_words_ok w (mnemonicWords_mem s h w hw)).1
  have hns : ∀ w ∈ mnemonicWords s, ∀ c ∈ w, goIsSpace c = false := fun w hw =>
    (wordList_words_ok w (mnemonicWords_mem s h w hw)).2
  obtain ⟨w1, ws, hw1⟩ : ∃ w1 ws, mnemonicWords s = w1 :: ws := by
    rcases hmw : mnemonicWords s with _ | ⟨w1, ws⟩
    · have hlen := mnemonicWords_length s
      rw [hmw] at hlen
      simp at hlen
    · exact ⟨w1, ws, rfl⟩
  apply goTrimSpace_noop_edges
  · intro c hc
    rw [hw1, goJoin_head? w1 ws (hww w1 (by rw [hw1]; simp))] at hc
    apply hns w1 (by rw [hw1]; simp)
    cases w1 with
    | nil => simp at hc
    | cons a t =>
      simp only [List.head?_cons, Option.some.injEq] at hc
      simp [hc]
  · intro c hc
    have hne : mnemonicWords s ≠ [] := by rw [hw1]; simp
    obtain ⟨q, hq⟩ : ∃ q, (mnemonicWords s).getLast? = some q :=
      ⟨_, List.getLast?_eq_getLast_of_ne_nil hne⟩
    obtain ⟨hne', heq⟩ := List.mem_getLast?_eq_getLast (Option.mem_def.mpr hq)
    have hqmem : q ∈ mnemonicWords s := heq ▸ List.getLast_mem hne'
    rw [goJoin_getLast? _ q hq hww] at hc
    apply hns q hqmem
    rcases List.eq_nil_or_concat q with hqn | ⟨L, bq, hqc⟩
    · rw [hqn] at hc; simp at hc
    · rw [hqc] at hc
      simp only [List.concat_eq_append, List.getLast?_concat, Option.some.injEq] at hc
      rw [hqc, hc]
      simp

/-- `DecodeUserInput` on an input splitting into at least two tokens runs the
mnemonic branch. -/
theorem decodeUserInput_multiword (input w1 w2 : GoStr) (ws : List GoStr)
    (hsp : goSplit ' ' (goTrimSpace input) = w1 :: w2 :: ws) :
    DecodeUserInput input =
      match DecodeMnemonics (w1 :: w2 :: ws) with
      | .error e => .error e
      | .ok decoded =>
        match seedFromDecoded decoded with
        | .error e => .error e
        | .ok seed => seedLengthCheck seed := by
  unfold DecodeUserInput
  rw [hsp]

/-- The checksum step accepts a decoded list that really is a seed followed
by its checksum byte, and returns the seed. -/
theorem seedFromDecoded_append_checksum (s : List Nat) :
    seedFromDecoded (s ++ [checksumByte s]) = .ok s := by
  cases hs : s with
  | nil => simp [seedFromDecoded]
  | cons a t =>
    rw [← hs]
    have hpos : 1 ≤ s.length := by rw [hs]; simp
    have hlen : (s ++ [checksumByte s]).length = s.length + 1 := by simp
    unfold seedFromDecoded
    rw [hlen]
    have h2 : ¬(s.length + 1 < 2) := by omega
    rw [if_neg h2]
    have hm1 : s.length + 1 - 1 = s.length := by omega
    rw [hm1]
    have hgd : (s ++ [checksumByte s]).getD s.length 0 = checksumByte s := by
      rw [List.getD_eq_getElem _ _ (by simp)]
      simp
    rw [hgd, List.take_left]
    simp

theorem seedLengthCheck_ok (s : List Nat) (hmin : MinSeedBytes <= s.length)
    (hmax : s.length <= MaxSeedBytes) : seedLengthCheck s = .ok s := by
  unfold seedLengthCheck
  have hc : (s.length < MinSeedBytes || s.length > MaxSeedBytes) = false := by
    simp only [Bool.or_eq_false_iff, decide_eq_false_iff_not, not_lt]
    exact ⟨hmin, hmax⟩
  rw [hc]
  simp

/-- C1. Round-trip: decoding the encoded phrase of any seed of accepted
length returns exactly the seed: the checksum word is verified and
stripped. -/
theorem decodeUserInput_encodeMnemonic_roundTrip (s : List Nat)
    (hb : ∀ b ∈ s, b < 256)
    (hmin : MinSeedBytes <= s.length) (hmax : s.length <= MaxSeedBytes) :
    DecodeUserInput (EncodeMnemonic s) = .ok s := by
  have hs : s ≠ [] := by
    intro h
    rw [h] at hmin
    simp [MinSeedBytes] at hmin
  have hne : mnemonicWords s ≠ [] := by
    intro h
    have hl := mnemonicWords_length s
    rw [h] at hl
    simp at hl
  obtain ⟨w1, w2, rest, hshape⟩ : ∃ w1 w2 rest, mnemonicWords s = w1 :: w2 :: rest := by
    have hlen := mnemonicWords_length s
    rcases hmw : mnemonicWords s with _ | ⟨a, t⟩
    · rw [hmw] at hlen
      simp at hlen
    · rcases t with _ | ⟨a2, t2⟩
      · rw [hmw] at hlen
        simp at hlen
        exact absurd hlen hs
      · exact ⟨a, a2, t2, rfl⟩
  have hsp : goSplit ' ' (goTrimSpace (EncodeMnemonic s)) = w1 :: w2 :: rest := by
    rw [encodeMnemonic_eq_goJoin s hs, goTrimSpace_phrase s hb,
      goSplit_goJoin _ hne (mnemonicWords_no_space s hb), hshape]
  rw [decodeUserInput_multiword _ w1 w2 rest hsp, ← hshape,
    decodeMnemonics_mnemonicWords s hb]
  simp only [seedFromDecoded_append_checksum]
  exact seedLengthCheck_ok s hmin hmax

/-! ## C1 witness -/

/-- C1 witness: the round-trip at a concrete 16-byte seed. -/
theorem decodeUserInput_encodeMnemonic_roundTrip_witness :
    DecodeUserInput (EncodeMnemonic [0, 1, 2, 3, 4, 5, 6, 7, 8, 9, 10, 11, 12, 13, 14, 15]) =
      .ok [0, 1, 2, 3, 4, 5, 6, 7, 8, 9, 10, 11, 12, 13, 14, 15] :=
  decodeUserInput_encodeMnemonic_roundTrip _ (by decide) (by decide) (by decide)

/-! ## C10: size of the table and totality of the lookup -/

/-- C10. The word list has exactly 512 entries, and for every byte value and
every position the table index computed by `ByteToMnemonic` is in bounds, so
the lookup always hits an entry of the table. -/
theorem wordList_512_and_byteToMnemonic_total :
    wordList.length = 512 ∧
    ∀ b i : Nat, b < 256 ->
      mnemonicIndex b i < wordList.length ∧ ByteToMnemonic b i ∈ wordList :=
  ⟨wordList_length, fun b i hb =>
    ⟨by rw [wordList_length]; exact mnemonicIndex_lt b i hb, byteToMnemonic_mem b i hb⟩⟩

/-- C10 witness: the extreme case, byte 255 at an odd position. -/
theorem wordList_512_and_byteToMnemonic_total_witness :
    wordList.length = 512 ∧
    mnemonicIndex 255 1 < wordList.length ∧ ByteToMnemonic 255 1 ∈ wordList :=
  ⟨wordList_512_and_byteToMnemonic_total.1,
   wordList_512_and_byteToMnemonic_total.2 255 1 (by decide)⟩

/-! ## C4: the shape of the encoder output -/

/-- C4 counterexample: at the empty seed the claim fails — the encoder
writes its unconditional space before the checksum word, so the output has a
leading space and is not the plain join of the word sequence. -/
theorem encodeMnemonic_empty_cex :
    EncodeMnemonic [] ≠ goJoin ' ' (mnemonicWords []) := by
  intro h
  have hlen : (EncodeMnemonic []).length = (goJoin ' ' (mnemonicWords [])).length :=
    congrArg List.length h
  simp [EncodeMnemonic, encodeMnemonicLoop, mnemonicWords, byteWordsFrom, goJoin] at hlen

/-- C4 (amended). For every nonempty seed, the encoding is the space-join of
the word of each byte (table index `2*b + (i mod 2)`) and the checksum word
at position `len(seed)`, with no leading or trailing whitespace, and never
fails; for the empty seed the output is a single space followed by the
checksum word. -/
theorem encodeMnemonic_spec :
    (∀ s : List Nat, s ≠ [] -> (∀ b ∈ s, b < 256) ->
      EncodeMnemonic s = goJoin ' ' (mnemonicWords s) ∧
      goTrimSpace (EncodeMnemonic s) = EncodeMnemonic s) ∧
    EncodeMnemonic [] = ' ' :: ByteToMnemonic (checksumByte []) 0 := by
  constructor
  · intro s hs hb
    refine ⟨encodeMnemonic_eq_goJoin s hs, ?_⟩
    rw [encodeMnemonic_eq_goJoin s hs]
    exact goTrimSpace_phrase s hb
  · rfl

/-- C4 witness: the amended statement at the one-byte seed `[0]`. -/
theorem encodeMnemonic_spec_witness :
    EncodeMnemonic [0] = goJoin ' ' (mnemonicWords [0]) ∧
    goTrimSpace (EncodeMnemonic [0]) = EncodeMnemonic [0] :=
  encodeMnemonic_spec.1 [0] (by decide) (by decide)

/-! ## C5: dropping the first word trips the parity check -/

/-- C5. Every nonempty seed has a phrase of at least 2 words, and removing
the first word makes `DecodeMnemonics` fail at position 0 with the
positional-parity `EncodingError`: the new first word sits at an odd table
index but at even position 0. -/
theorem decodeMnemonics_drop_first_word (s : List Nat) (hs : s ≠ [])
    (hb : ∀ b ∈ s, b < 256) :
    2 <= (mnemonicWords s).length ∧
    DecodeMnemonics ((mnemonicWords s).drop 1) =
      .error (.wordInvalidAtPosition (ByteToMnemonic ((s ++ [checksumByte s]).getD 1 0) 1) 0) ∧
    (DecodeError.wordInvalidAtPosition (ByteToMnemonic ((s ++ [checksumByte s]).getD 1 0) 1) 0).kind
      = .Encoding := by
  obtain ⟨b, rest, rfl⟩ := List.exists_cons_of_ne_nil hs
  refine ⟨by rw [mnemonicWords_length]; simp, ?_, rfl⟩
  have hmw : (mnemonicWords (b :: rest)).drop 1 =
      byteWordsFrom 1 (rest ++ [checksumByte (b :: rest)]) := by
    rw [mnemonicWords_eq]
    simp [byteWordsFrom]
  cases hrx : rest ++ [checksumByte (b :: rest)] with
  | nil => simp at hrx
  | cons x xs =>
    have hx256 : x < 256 := by
      have hxm : x ∈ rest ++ [checksumByte (b :: rest)] := by rw [hrx]; simp
      rcases List.mem_append.mp hxm with hxm | hxm
      · exact hb x (by simp [hxm])
      · simp only [List.mem_singleton] at hxm
        exact hxm ▸ checksumByte_lt (b :: rest)
    have hx1 : ((b :: rest) ++ [checksumByte (b :: rest)]).getD 1 0 = x := by
      rw [List.cons_append]
      simp [hrx]
    have hwmem := byteToMnemonic_mem x 1 hx256
    obtain ⟨hwne, hwns⟩ := wordList_words_ok _ hwmem
    have htrim := goTrimSpace_noop_of_no_space _ hwns
    have hlook : wordIndexes (goToLower (ByteToMnemonic x 1)) = some (mnemonicIndex x 1) :=
      htrim ▸ wordIndexes_byteToMnemonic x 1 hx256
    have hpar : (mnemonicIndex x 1 % 2 != 0 % 2) = true := by
      rw [mnemonicIndex_mod_two]
      decide
    rw [hx1, hmw, hrx]
    unfold DecodeMnemonics
    simp only [byteWordsFrom, decodeMnemonicsLoop, htrim, hlook, hpar, if_neg hwne, if_true]

/-- C5 witness: the drop-first-word failure at the concrete seed `[0]`. -/
theorem decodeMnemonics_drop_first_word_witness :
    2 <= (mnemonicWords [0]).length ∧
    DecodeMnemonics ((mnemonicWords [0]).drop 1) =
      .error (.wordInvalidAtPosition
        (ByteToMnemonic (([0] ++ [checksumByte [0]]).getD 1 0) 1) 0) ∧
    (DecodeError.wordInvalidAtPosition
        (ByteToMnemonic (([0] ++ [checksumByte [0]]).getD 1 0) 1) 0).kind = .Encoding :=
  decodeMnemonics_drop_first_word [0] (by decide) (by decide)

/-! ## C3: the hex scenario -/

/-- C3 counterexample: `DecodeUserInput "deadbeef"` does not return the four
bytes — the final length-bounds check rejects them (4 < MinSeedBytes). -/
theorem decodeUserInput_deadbeef_cex :
    DecodeUserInput ("deadbeef".data) = .error .invalidSeedLen := rfl

/-- C3 (amended). The single hex token "deadbeef" takes the hex branch and
decodes to the 4 raw bytes DE AD BE EF without touching the mnemonic or
checksum logic, but `DecodeUserInput` then fails the always-applied seed
length bounds check (4 < MinSeedBytes = 16), returning the
invalid-seed-length `EncodingError` rather than the bytes. -/
theorem decodeUserInput_deadbeef :
    goDecodeHex ("deadbeef".data) = some [222, 173, 190, 239] ∧
    seedLengthCheck [222, 173, 190, 239] = .error .invalidSeedLen ∧
    DecodeUserInput ("deadbeef".data) = .error .invalidSeedLen ∧
    DecodeError.invalidSeedLen.kind = .Encoding := ⟨rfl, rfl, rfl, rfl⟩

/-! ## C8: the short-decode fallthrough -/

/-- C8. A successful mnemonic decode of fewer than 2 bytes raises no
checksum error: the checksum step falls through with the empty seed, the
final length check then rejecting with the invalid-seed-length error; hence
any multi-token input whose mnemonic decode succeeds with fewer than 2
bytes makes `DecodeUserInput` fail with the invalid-seed-length error. -/
theorem seedFromDecoded_short (decoded : List Nat) (hlen : decoded.length < 2) :
    seedFromDecoded decoded = .ok [] ∧
    seedLengthCheck [] = .error .invalidSeedLen ∧
    (∀ (input w1 w2 : GoStr) (ws : List GoStr),
      goSplit ' ' (goTrimSpace input) = w1 :: w2 :: ws ->
      DecodeMnemonics (w1 :: w2 :: ws) = .ok decoded ->
      DecodeUserInput input = .error .invalidSeedLen) := by
  have h1 : seedFromDecoded decoded = .ok [] := by
    unfold seedFromDecoded
    rw [if_pos hlen]
  refine ⟨h1, rfl, ?_⟩
  intro input w1 w2 ws hsp hdec
  rw [decodeUserInput_multiword _ w1 w2 ws hsp]
  simp only [hdec, h1]
  rfl

/-- C8 witness: the fallthrough at the concrete one-byte decode `[5]`. -/
theorem seedFromDecoded_short_witness :
    seedFromDecoded [5] = .ok [] ∧ seedLengthCheck [] = .error .invalidSeedLen :=
  ⟨(seedFromDecoded_short [5] (by decide)).1, (seedFromDecoded_short [5] (by decide)).2.1⟩

/-! ## C2 and C9: the batch wrapper -/

/-- C2. The wrapper commits exactly when `Begin` succeeded and `dbOp`
returned normally with a nil error; a non-nil error or a panic rolls the
transaction back before leaving the wrapper, the error being returned and
the panic propagating unrecovered with its original value; and on the
success path the commit error, if any, is the returned error. -/
theorem batchDbTransaction_commit_iff (db : StormBackend) (op : OpBehavior) :
    ((DbAction.commitTx ∈ (batchDbTransaction db op).actions) ↔
      (db.beginErr = none ∧ op = .ret none)) ∧
    (∀ e, db.beginErr = none -> op = .ret (some e) ->
      batchDbTransaction db op = ⟨.ret (some e), [.beginTx, .rollbackTx]⟩) ∧
    (∀ v, db.beginErr = none -> op = .panics v ->
      batchDbTransaction db op = ⟨.panicked v, [.beginTx, .rollbackTx]⟩) ∧
    (db.beginErr = none -> op = .ret none ->
      (batchDbTransaction db op).outcome = .ret db.commitErr) := by
  rcases db with ⟨be, ce, re⟩
  rcases be with _ | e0 <;> rcases op with ⟨_ | e⟩ | v <;>
    simp [batchDbTransaction]

/-- C2 witness: the four branches at concrete backends and operations. -/
theorem batchDbTransaction_commit_iff_witness :
    (DbAction.commitTx ∈ (batchDbTransaction ⟨none, none, none⟩ (.ret none)).actions) ∧
    batchDbTransaction ⟨none, none, none⟩ (.ret (some "boom")) =
      ⟨.ret (some "boom"), [.beginTx, .rollbackTx]⟩ ∧
    batchDbTransaction ⟨none, none, none⟩ (.panics "pv") =
      ⟨.panicked "pv", [.beginTx, .rollbackTx]⟩ ∧
    (batchDbTransaction ⟨none, none, none⟩ (.ret none)).outcome = .ret none :=
  ⟨(batchDbTransaction_commit_iff ⟨none, none, none⟩ (.ret none)).1.mpr ⟨rfl, rfl⟩,
   (batchDbTransaction_commit_iff ⟨none, none, none⟩ (.ret (some "boom"))).2.1 "boom" rfl rfl,
   (batchDbTransaction_commit_iff ⟨none, none, none⟩ (.panics "pv")).2.2.1 "pv" rfl rfl,
   (batchDbTransaction_commit_iff ⟨none, none, none⟩ (.ret none)).2.2.2 rfl rfl⟩

/-- C9 counterexample: a failure of the `Rollback` call is silently
discarded — the batch result is identical whether rollback fails or not,
and the caller sees only the operation's error. -/
theorem batchDbTransaction_rollbackErr_cex :
    batchDbTransaction ⟨none, none, some "rollback failed"⟩ (.ret (some "op failed")) =
      batchDbTransaction ⟨none, none, none⟩ (.ret (some "op failed")) ∧
    (batchDbTransaction ⟨none, none, some "rollback failed"⟩ (.ret (some "op failed"))).outcome =
      .ret (some "op failed") := by
  exact ⟨rfl, rfl⟩

/-- C9 (amended). Begin and commit failures are propagated to the caller;
the `Rollback()` return value, however, is discarded by the source: the
batch result never depends on the rollback error, and on the rollback paths
the operation's own error or panic propagates instead. -/
theorem batchDbTransaction_error_propagation (db : StormBackend) (op : OpBehavior) :
    (∀ e, db.beginErr = some e -> (batchDbTransaction db op).outcome = .ret (some e)) ∧
    (db.beginErr = none -> op = .ret none ->
      (batchDbTransaction db op).outcome = .ret db.commitErr) ∧
    (∀ rb, batchDbTransaction ⟨db.beginErr, db.commitErr, rb⟩ op = batchDbTransaction db op) ∧
    (∀ e, db.beginErr = none -> op = .ret (some e) ->
      (batchDbTransaction db op).outcome = .ret (some e)) ∧
    (∀ v, db.beginErr = none -> op = .panics v ->
      (batchDbTransaction db op).outcome = .panicked v) := by
  rcases db with ⟨be, ce, re⟩
  rcases be with _ | e0 <;> rcases op with ⟨_ | e⟩ | v <;>
    simp [batchDbTransaction]

/-- C9 witness: the amended statement at a concrete backend. -/
theorem batchDbTransaction_error_propagation_witness :
    (batchDbTransaction ⟨some "begin failed", none, none⟩ (.ret none)).outcome =
      .ret (some "begin failed") ∧
    (batchDbTransaction ⟨none, some "commit failed", none⟩ (.ret none)).outcome =
      .ret (some "commit failed") ∧
    batchDbTransaction ⟨none, none, some "rb"⟩ (.panics "pv") =
      batchDbTransaction ⟨none, none, none⟩ (.panics "pv") :=
  ⟨(batchDbTransaction_error_propagation ⟨some "begin failed", none, none⟩ (.ret none)).1
      "begin failed" rfl,
   (batchDbTransaction_error_propagation ⟨none, some "commit failed", none⟩ (.ret none)).2.1
      rfl rfl,
   (batchDbTransaction_error_propagation ⟨none, none, none⟩ (.panics "pv")).2.2.1 (some "rb")⟩

/-! ## C6 and C7: the seed vault -/

theorem hexDigit_roundtrip : ∀ n : Nat, n < 16 -> hexDigitValue? (hexDigitChar n) = some n := by
  decide

/-- Decoding the hex encoding of a byte list returns the byte list. -/
theorem goDecodeHex_goEncodeHex : ∀ bs : List Nat, (∀ b ∈ bs, b < 256) ->
    goDecodeHex (goEncodeHex bs) = some bs := by
  intro bs
  induction bs with
  | nil => intro _; rfl
  | cons b rest ih =>
    intro h
    have hb : b < 256 := h b (by simp)
    have h1 : hexDigitValue? (hexDigitChar (b / 16)) = some (b / 16) :=
      hexDigit_roundtrip _ (by omega)
    have h2 : hexDigitValue? (hexDigitChar (b % 16)) = some (b % 16) :=
      hexDigit_roundtrip _ (by omega)
    have hrest := ih fun x hx => h x (by simp [hx])
    simp only [goEncodeHex, goDecodeHex, h1, h2, hrest]
    have hbb : b / 16 * 16 + b % 16 = b := by omega
    rw [hbb]

/-- The length of the hex encoding: two characters per byte. -/
theorem goEncodeHex_length : ∀ bs : List Nat, (goEncodeHex bs).length = 2 * bs.length := by
  intro bs
  induction bs with
  | nil => rfl
  | cons b rest ih => simp [goEncodeHex, ih]; omega

/-- When scrypt returns a 32-byte hash, `naclLoadFromPass` loads exactly
that hash as the key. -/
theorem naclLoadFromPass_ok (P : VaultPrims) (pass k : List Nat)
    (hk : P.scryptKey pass = .ok k) (hklen : k.length = 32) (hkb : ∀ b ∈ k, b < 256) :
    naclLoadFromPass P pass = .ok k := by
  unfold naclLoadFromPass
  rw [hk]
  show naclLoad (goEncodeHex k) = .ok k
  unfold naclLoad
  simp [goDecodeHex_goEncodeHex k hkb, hklen, naclKeySize]

/-- C6. Vault round-trip: under the library contracts for scrypt and the
secretbox, opening an encrypted seed with the sealing passphrase returns
the seed with no error. -/
theorem decryptWalletSeed_encryptWalletSeed (P : VaultPrims)
    (hS : ScryptTotal P) (hO : SealOpenId P) (pass seed : List Nat) :
    decryptWalletSeed P pass (encryptWalletSeed P pass seed).1 = (seed, none) := by
  obtain ⟨k, hk, hklen, hkb⟩ := hS pass
  have hload : naclLoadFromPass P pass = .ok k := naclLoadFromPass_ok P pass k hk hklen hkb
  unfold encryptWalletSeed decryptWalletSeed
  rw [hload]
  simp only [hO seed k hklen]

/-- An idealized secretbox and scrypt satisfying the contracts: the blob is
the key followed by the message, opening checks the key prefix. -/
def idealPrims : VaultPrims :=
  ⟨fun _ => .ok (List.replicate 32 0),
   fun m k => k ++ m,
   fun blob k => if blob.take 32 = k then .ok (blob.drop 32)
     else .error "secretbox: could not verify"⟩

theorem idealPrims_scryptTotal : ScryptTotal idealPrims :=
  fun _ => ⟨List.replicate 32 0, rfl, by simp, by simp⟩

theorem idealPrims_sealOpen : SealOpenId idealPrims := by
  intro m k hk
  have htake : (k ++ m).take 32 = k := by
    rw [← hk]
    exact List.take_left k m
  have hdrop : (k ++ m).drop 32 = m := by
    rw [← hk]
    exact List.drop_left k m
  simp [idealPrims, htake, hdrop]

/-- C6 witness: the round-trip at a concrete passphrase and seed under the
idealized primitives. -/
theorem decryptWalletSeed_encryptWalletSeed_witness :
    decryptWalletSeed idealPrims [1, 2] (encryptWalletSeed idealPrims [1, 2] [42, 43]).1 =
      ([42, 43], none) :=
  decryptWalletSeed_encryptWalletSeed idealPrims idealPrims_scryptTotal idealPrims_sealOpen
    [1, 2] [42, 43]

/-- C7. Every failure of the authenticated open is reported as
`ErrInvalidPassphrase` with the empty result, and a key-derivation failure
is propagated as its own error instead. -/
theorem decryptWalletSeed_failure_modes (P : VaultPrims) (pass blob : List Nat) :
    (∀ key e, naclLoadFromPass P pass = .ok key -> P.easyOpen blob key = .error e ->
      decryptWalletSeed P pass blob = ([], some ErrInvalidPassphrase)) ∧
    (∀ e, naclLoadFromPass P pass = .error e ->
      decryptWalletSeed P pass blob = ([], some e)) := by
  constructor
  · intro key e hl ho
    unfold decryptWalletSeed
    rw [hl]
    simp only [ho]
  · intro e hl
    unfold decryptWalletSeed
    rw [hl]

/-- Primitives whose authenticated open always fails. -/
def failOpenPrims : VaultPrims :=
  ⟨fun _ => .ok (List.replicate 32 0), fun m _ => m, fun _ _ => .error "bad box"⟩

/-- Primitives whose key derivation always fails. -/
def failKdfPrims : VaultPrims :=
  ⟨fun _ => .error "scrypt failed", fun m _ => m, fun _ _ => .error "x"⟩

/-- C7 witness: a failing open collapses to `ErrInvalidPassphrase`; a
failing derivation propagates its own error. -/
theorem decryptWalletSeed_failure_modes_witness :
    decryptWalletSeed failOpenPrims [] [9] = ([], some ErrInvalidPassphrase) ∧
    decryptWalletSeed failKdfPrims [] [9] = ([], some "scrypt failed") :=
  ⟨(decryptWalletSeed_failure_modes failOpenPrims [] [9]).1 (List.replicate 32 0) "bad box"
      (by rfl) rfl,
   (decryptWalletSeed_failure_modes failKdfPrims [] [9]).2 "scrypt failed" rfl⟩
